import Mathlib

/-!
Verification of the SString UTF-8 string library (SHIINASAMA/SString).

The repository ships the public header (src/include/SString/SString.h),
which declares the codec functions, the view class SStringView and the
owned-string class SString; the translation units src/algorithm.cpp and
src/SString.cpp that hold the function bodies are not part of the
source snapshot.  Every definition below is therefore modelled from the
behavioural specification (spec.md), faithful to its words, and the
declarations and doc comments of the header.  Bytes are modelled as
natural numbers below 256, codepoints as natural numbers, buffers as
lists of bytes.  Cursor loops of the C++ code become fuel-indexed
structural recursions (one unit of fuel per consumed byte, which the
spec guarantees is enough since every character consumes at least one
byte).
-/

namespace sstr

/-- Modelled from the spec: byteWidth — the free function
getSizeFromUTF8Char declared in SString.h.  Inspects the high bits of a
leading byte per the UTF-8 pattern table (0xxxxxxx gives 1, 110xxxxx
gives 2, 1110xxxx gives 3, 11110xxx gives 4); any malformed leading
byte, in particular a continuation byte 10xxxxxx, is treated as width 1
(deliberate leniency mandated by sections 4.1 and 7 of the spec). -/
def getSizeFromUTF8Char (b : Nat) : Nat :=
  if b < 0x80 then 1
  else if 0xC0 ≤ b ∧ b < 0xE0 then 2
  else if 0xE0 ≤ b ∧ b < 0xF0 then 3
  else if 0xF0 ≤ b ∧ b < 0xF8 then 4
  else 1

/-- Modelled from the spec: encodedWidth — the free function
getUTF8SizeFromUnicodeChar declared in SString.h.  One byte below 0x80,
two below 0x800, three below 0x10000, four otherwise. -/
def getUTF8SizeFromUnicodeChar (c : Nat) : Nat :=
  if c < 0x80 then 1
  else if c < 0x800 then 2
  else if c < 0x10000 then 3
  else 4

/-- Modelled from the spec: decode — the free function
getUnicodeCharFromUTF8Char declared in SString.h.  Unpacks the given
number of bytes into a codepoint with the standard mask-and-shift rule:
drop the fixed high bits of the leading byte (modulo a power of two),
drop the 10 prefix of each continuation byte (modulo 64), and
concatenate most-significant-first. -/
def getUnicodeCharFromUTF8Char (sz : Nat) (bs : List Nat) : Nat :=
  if sz = 2 then bs.getD 0 0 % 32 * 64 + bs.getD 1 0 % 64
  else if sz = 3 then bs.getD 0 0 % 16 * 4096 + bs.getD 1 0 % 64 * 64 + bs.getD 2 0 % 64
  else if sz = 4 then
    bs.getD 0 0 % 8 * 262144 + bs.getD 1 0 % 64 * 4096 + bs.getD 2 0 % 64 * 64 + bs.getD 3 0 % 64
  else bs.getD 0 0 % 128

/-- Modelled from the spec: encode — the inverse of decode, writing the
fixed lead-byte pattern plus 10xxxxxx continuation bytes (the encoding
pass used by SString::fromSChars and by reverse). -/
def encodeUTF8Char (c : Nat) : List Nat :=
  if c < 0x80 then [c]
  else if c < 0x800 then [0xC0 + c / 64, 0x80 + c % 64]
  else if c < 0x10000 then [0xE0 + c / 4096, 0x80 + c / 64 % 64, 0x80 + c % 64]
  else [0xF0 + c / 262144, 0x80 + c / 4096 % 64, 0x80 + c / 64 % 64, 0x80 + c % 64]

/-- Concatenated encoding of a sequence of codepoints. -/
def encodeUTF8String : List Nat → List Nat
  | [] => []
  | c :: cs => encodeUTF8Char c ++ encodeUTF8String cs

/-- Modelled from the spec: the character cursor walk underlying
SStringView::toChars — repeatedly read the width of the next leading
byte, decode that many bytes, and advance past them, stopping at the
zero terminator or the end of the buffer.  The fuel argument bounds the
number of steps; one unit per remaining byte is always enough because
every step consumes at least one byte. -/
def utf8CharsAux : Nat → List Nat → List Nat
  | 0, _ => []
  | _, [] => []
  | fuel + 1, b :: rest =>
    if b = 0 then []
    else
      getUnicodeCharFromUTF8Char (getSizeFromUTF8Char b) (b :: rest) ::
        utf8CharsAux fuel (rest.drop (getSizeFromUTF8Char b - 1))

/-- Decoded codepoint sequence of a byte buffer (SStringView::toChars). -/
def toChars (s : List Nat) : List Nat :=
  utf8CharsAux s.length s

/-- Modelled from the spec: characterCount — the scan of the free
function getStringLengthFromUTF8String, summing byteWidth per step over
the zero-terminated byte run and counting one character per step. -/
def utf8LenAux : Nat → List Nat → Nat
  | 0, _ => 0
  | _, [] => 0
  | fuel + 1, b :: rest =>
    if b = 0 then 0
    else 1 + utf8LenAux fuel (rest.drop (getSizeFromUTF8Char b - 1))

/-- Character count of a zero-terminated UTF-8 byte run
(getStringLengthFromUTF8String). -/
def getStringLengthFromUTF8String (s : List Nat) : Nat :=
  utf8LenAux s.length s

/-- Modelled from the spec: byteCount — the free function
getByteLengthFromUTF8String scans the zero-terminated run and returns
the number of bytes before the terminator. -/
def getByteLengthFromUTF8String (s : List Nat) : Nat :=
  (s.takeWhile (fun b => !(b == 0))).length

/-- Modelled from the spec: SStringView::at — walk a cursor the given
number of characters from offset 0 and return the decoded codepoint
there (the element of the decoded sequence at that character index). -/
def atChar (s : List Nat) (i : Nat) : Nat :=
  (toChars s).getD i 0

/-- Boolean test that the first list is a leading block of the second,
element by element; the codepoint-sequence comparison used by the
search and split scans. -/
def isPrefixOfChars : List Nat → List Nat → Bool
  | [], _ => true
  | _ :: _, [] => false
  | a :: as, b :: bs => a == b && isPrefixOfChars as bs

/-- Modelled from the spec: the scan inside SStringView::find — try to
match the needle codepoint sequence at each successive character
position of the haystack, returning the character index of the first
match and the sentinel -1 when the haystack is exhausted. -/
def findGo (needle : List Nat) : List Nat → Nat → Int
  | [], i => if isPrefixOfChars needle [] then (i : Int) else -1
  | c :: rest, i =>
    if isPrefixOfChars needle (c :: rest) then (i : Int)
    else findGo needle rest (i + 1)

/-- Modelled from the spec: SStringView::find — decode haystack and
needle to codepoint sequences and run the naive scan; result is a
character index, or -1 for not found. -/
def find (hay needle : List Nat) : Int :=
  findGo (toChars needle) (toChars hay) 0

/-- Modelled from the spec: the scan inside SStringView::split over
decoded codepoint sequences — at each character position compare the
delimiter sequence; on a match emit the accumulated segment (possibly
empty) and continue past the delimiter; emit the trailing segment when
the scan ends.  The accumulator holds the current segment reversed;
fuel bounds the number of steps. -/
def splitGo (d : List Nat) : Nat → List Nat → List Nat → List (List Nat)
  | 0, s, acc => [acc.reverse ++ s]
  | _ + 1, [], acc => [acc.reverse]
  | fuel + 1, c :: rest, acc =>
    if isPrefixOfChars d (c :: rest) = true ∧ d ≠ [] then
      acc.reverse :: splitGo d fuel ((c :: rest).drop d.length) []
    else splitGo d fuel rest (c :: acc)

/-- Split of a codepoint sequence by a delimiter codepoint sequence
(SStringView::split, at character granularity). -/
def splitChars (s d : List Nat) : List (List Nat) :=
  splitGo d s.length s []

/-- Concatenation of segments with the delimiter reinserted between
consecutive segments — the reconstruction used to state the split
round-trip property. -/
def joinWithDelim (d : List Nat) : List (List Nat) → List Nat
  | [] => []
  | [x] => x
  | x :: xs => x ++ d ++ joinWithDelim d xs

/-- The needle sequence occurs somewhere in the haystack sequence as a
contiguous block — the property the find sentinel is measured against. -/
def OccursIn (needle hay : List Nat) : Prop :=
  ∃ pre post, hay = pre ++ needle ++ post

/-- Skip leading ASCII space bytes — the scan trim runs from each end
of the buffer. -/
def dropSpaces : List Nat → List Nat
  | [] => []
  | b :: t => if b == 32 then dropSpaces t else b :: t

/-- Modelled from the spec: SStringView::trim — strip only the ASCII
space codepoint 0x20 from both ends of the buffer and return the
remaining bytes as a new owned string.  Space is a one-byte character
and no continuation byte equals 0x20, so the byte-level strip performed
here coincides with the character-level strip on well-formed input. -/
def trim (s : List Nat) : List Nat :=
  (dropSpaces (dropSpaces s).reverse).reverse

/-- Modelled from the spec: SStringView::reverse — decode the full
sequence to codepoints, reverse the order of that sequence, and
re-encode it into a new owned buffer (a codepoint-order reversal, not a
byte reversal). -/
def reverse (s : List Nat) : List Nat :=
  encodeUTF8String (toChars s).reverse

/-- Modelled from the spec: ASCII lower-casing of one codepoint — add
the fixed offset 0x20 inside the range 0x41 to 0x5A, pass everything
else through unchanged. -/
def toLowerChar (c : Nat) : Nat :=
  if 0x41 ≤ c ∧ c ≤ 0x5A then c + 0x20 else c

/-- Modelled from the spec: ASCII upper-casing of one codepoint —
subtract the fixed offset 0x20 inside the range 0x61 to 0x7A, pass
everything else through unchanged. -/
def toUpperChar (c : Nat) : Nat :=
  if 0x61 ≤ c ∧ c ≤ 0x7A then c - 0x20 else c

/-- Test that a codepoint is an ASCII capital letter. -/
def isUpperAscii (c : Nat) : Bool :=
  if 0x41 ≤ c ∧ c ≤ 0x5A then true else false

/-- Test that a codepoint is an ASCII small letter. -/
def isLowerAscii (c : Nat) : Bool :=
  if 0x61 ≤ c ∧ c ≤ 0x7A then true else false

/-- Modelled from the spec: SStringView::isLower on a decoded codepoint
sequence — no ASCII capital letter occurs (only the two ASCII
alphabetic ranges are ever inspected). -/
def isLowerChars (cs : List Nat) : Bool :=
  cs.all fun c => !isUpperAscii c

/-- Modelled from the spec: SStringView::isUpper on a decoded codepoint
sequence — no ASCII small letter occurs. -/
def isUpperChars (cs : List Nat) : Bool :=
  cs.all fun c => !isLowerAscii c

/-- SStringView::isLower on a byte buffer. -/
def isLower (s : List Nat) : Bool :=
  isLowerChars (toChars s)

/-- SStringView::isUpper on a byte buffer. -/
def isUpper (s : List Nat) : Bool :=
  isUpperChars (toChars s)

/-- Modelled from the spec: SStringView::toLower — a copy of the string
with every codepoint lower-cased through the ASCII table. -/
def viewToLower (s : List Nat) : List Nat :=
  encodeUTF8String ((toChars s).map toLowerChar)

/-- Modelled from the spec: SStringView::toUpper — a copy of the string
with every codepoint upper-cased through the ASCII table. -/
def viewToUpper (s : List Nat) : List Nat :=
  encodeUTF8String ((toChars s).map toUpperChar)

/-- Modelled from the spec: the owned string SString — a heap buffer
(none models a null data pointer, some buf models an allocated buffer
whose length is the allocated capacity), the used byte length field
and the capacity field of the C++ object. -/
structure SString where
  data : Option (List Nat)
  size : Nat
  capacity : Nat

/-- Modelled from the spec: the default constructor SString() — null
data pointer, zero size, zero capacity. -/
def defaultSString : SString :=
  ⟨none, 0, 0⟩

/-- An allocated buffer holding the used bytes followed by the zero
terminator and zero fill up to the requested capacity. -/
def mkBuf (used : List Nat) (cap : Nat) : List Nat :=
  used ++ List.replicate (cap - used.length) 0

/-- Modelled from the spec: the copying constructors
SString(const char *, size_t) and SString::fromUTF8 — copy the source
bytes verbatim into a fresh buffer with room for the terminator. -/
def SString.fromBytes (bytes : List Nat) : SString :=
  ⟨some (mkBuf bytes (bytes.length + 1)), bytes.length, bytes.length + 1⟩

/-- Modelled from the spec: the copy constructor — deep copy of the
buffer, same size and capacity. -/
def SString.copy (s : SString) : SString :=
  ⟨s.data, s.size, s.capacity⟩

/-- Modelled from the spec: the move constructor, destination side —
the pointer, size and capacity are transferred verbatim. -/
def SString.moveDest (s : SString) : SString :=
  s

/-- Modelled from the spec: the move constructor, source side — the
moved-from object has its fields zeroed (null data, zero size, zero
capacity). -/
def SString.moveSrc (_ : SString) : SString :=
  ⟨none, 0, 0⟩

/-- Destruction of an owned string is a no-op exactly when there is no
buffer to free. -/
def SString.destructorIsNoop (s : SString) : Prop :=
  s.data = none

/-- The used bytes of the buffer (the first size bytes). -/
def SString.usedBytes (s : SString) : List Nat :=
  (s.data.getD []).take s.size

/-- Modelled from the spec: the mutating append SString::operator+= —
when the new contents and terminator fit, copy the new bytes at the
end in place; otherwise grow the capacity geometrically (doubling, or
to the needed room when doubling is not enough), copy, update the
length and re-write the terminator. -/
def SString.appendAssign (s : SString) (t : List Nat) : SString :=
  if s.size + t.length < s.capacity then
    ⟨some (mkBuf (s.usedBytes ++ t) s.capacity), s.size + t.length, s.capacity⟩
  else
    ⟨some (mkBuf (s.usedBytes ++ t) (max (2 * s.capacity) (s.size + t.length + 1))),
      s.size + t.length, max (2 * s.capacity) (s.size + t.length + 1)⟩

/-- Modelled from the spec: the in-place case conversions of SString —
rewrite the used bytes through the given ASCII table in place; valid
because ASCII case folding never changes the encoded width.  The
terminator and the unused tail of the buffer are untouched. -/
def SString.mapBytesInPlace (f : Nat → Nat) (s : SString) : SString :=
  match s.data with
  | none => s
  | some buf => ⟨some ((buf.take s.size).map f ++ buf.drop s.size), s.size, s.capacity⟩

/-- In-place SString::toUpper. -/
def SString.toUpperInPlace (s : SString) : SString :=
  s.mapBytesInPlace toUpperChar

/-- In-place SString::toLower. -/
def SString.toLowerInPlace (s : SString) : SString :=
  s.mapBytesInPlace toLowerChar

/-- The owned-string invariant of the spec: either the data pointer is
null and both counters are zero (the default-constructed or moved-from
state, whose destruction is a no-op), or the buffer length is the
recorded capacity, the used byte length is strictly below the capacity,
and the byte at offset size is the zero terminator. -/
def SString.WF (s : SString) : Prop :=
  match s.data with
  | none => s.size = 0 ∧ s.capacity = 0
  | some buf => buf.length = s.capacity ∧ s.size < s.capacity ∧ buf.get? s.size = some 0

/-- Modelled from the spec: SStringView::null and SString::null — a
null-pointer check on the data field. -/
def SString.null (s : SString) : Bool :=
  s.data.isNone

/-- Modelled from the spec: SStringView::empty and SString::empty — a
zero-length check on the size field. -/
def SString.empty (s : SString) : Bool :=
  s.size == 0

/-! ## Helper lemmas about the codec -/

theorem encodeUTF8Char_length_eq (c : Nat) :
    (encodeUTF8Char c).length = getUTF8SizeFromUnicodeChar c := by
  unfold encodeUTF8Char getUTF8SizeFromUnicodeChar
  split_ifs <;> rfl

theorem encodeUTF8Char_ne_nil (c : Nat) : encodeUTF8Char c ≠ [] := by
  unfold encodeUTF8Char
  split_ifs <;> simp

theorem size_lead1 (c : Nat) (h : c < 0x80) : getSizeFromUTF8Char c = 1 := by
  unfold getSizeFromUTF8Char
  rw [if_pos h]

theorem size_lead2 (c : Nat) (h2 : c < 0x800) :
    getSizeFromUTF8Char (0xC0 + c / 64) = 2 := by
  have hd : c / 64 < 32 := by omega
  unfold getSizeFromUTF8Char
  rw [if_neg (by omega), if_pos (by omega)]

theorem size_lead3 (c : Nat) (h2 : c < 0x10000) :
    getSizeFromUTF8Char (0xE0 + c / 4096) = 3 := by
  have hd : c / 4096 < 16 := by omega
  unfold getSizeFromUTF8Char
  rw [if_neg (by omega), if_neg (by omega), if_pos (by omega)]

theorem size_lead4 (c : Nat) (h2 : c < 0x110000) :
    getSizeFromUTF8Char (0xF0 + c / 262144) = 4 := by
  have hd : c / 262144 < 8 := by omega
  unfold getSizeFromUTF8Char
  rw [if_neg (by omega), if_neg (by omega), if_neg (by omega), if_pos (by omega)]

theorem decode1 (c : Nat) (h : c < 0x80) (rest : List Nat) :
    getUnicodeCharFromUTF8Char 1 (c :: rest) = c := by
  unfold getUnicodeCharFromUTF8Char
  simp
  omega

theorem decode2 (c : Nat) (h2 : c < 0x800) (rest : List Nat) :
    getUnicodeCharFromUTF8Char 2 ((0xC0 + c / 64) :: (0x80 + c % 64) :: rest) = c := by
  unfold getUnicodeCharFromUTF8Char
  simp
  omega

theorem decode3 (c : Nat) (h2 : c < 0x10000) (rest : List Nat) :
    getUnicodeCharFromUTF8Char 3
      ((0xE0 + c / 4096) :: (0x80 + c / 64 % 64) :: (0x80 + c % 64) :: rest) = c := by
  unfold getUnicodeCharFromUTF8Char
  simp
  omega

theorem decode4 (c : Nat) (h2 : c < 0x110000) (rest : List Nat) :
    getUnicodeCharFromUTF8Char 4
      ((0xF0 + c / 262144) :: (0x80 + c / 4096 % 64) :: (0x80 + c / 64 % 64) ::
        (0x80 + c % 64) :: rest) = c := by
  unfold getUnicodeCharFromUTF8Char
  simp
  omega

/-- One full codec step: the encoding of a nonzero valid codepoint put in
front of arbitrary trailing bytes starts with a nonzero leading byte
whose declared width is exactly the length of the encoding, decoding
that many bytes recovers the codepoint, and advancing past the width
lands exactly on the trailing bytes. -/
theorem encode_step (c : Nat) (rest : List Nat) (h1 : c < 0x110000) (h0 : 0 < c) :
    ∃ b tail,
      encodeUTF8Char c ++ rest = b :: tail ∧
      b ≠ 0 ∧
      getSizeFromUTF8Char b = (encodeUTF8Char c).length ∧
      tail.drop (getSizeFromUTF8Char b - 1) = rest ∧
      getUnicodeCharFromUTF8Char (getSizeFromUTF8Char b) (b :: tail) = c := by
  by_cases hA : c < 0x80
  · refine ⟨c, rest, by simp [encodeUTF8Char, hA], by omega, ?_, ?_, ?_⟩
    · simp [encodeUTF8Char, hA, size_lead1 c hA]
    · simp [size_lead1 c hA]
    · rw [size_lead1 c hA]
      exact decode1 c hA rest
  · by_cases hB : c < 0x800
    · refine ⟨0xC0 + c / 64, (0x80 + c % 64) :: rest,
        by simp [encodeUTF8Char, hA, hB], by omega, ?_, ?_, ?_⟩
      · simp [encodeUTF8Char, hA, hB, size_lead2 c hB]
      · simp [size_lead2 c hB]
      · rw [size_lead2 c hB]
        exact decode2 c hB rest
    · by_cases hC : c < 0x10000
      · refine ⟨0xE0 + c / 4096, (0x80 + c / 64 % 64) :: (0x80 + c % 64) :: rest,
          by simp [encodeUTF8Char, hA, hB, hC], by omega, ?_, ?_, ?_⟩
        · simp [encodeUTF8Char, hA, hB, hC, size_lead3 c hC]
        · simp [size_lead3 c hC]
        · rw [size_lead3 c hC]
          exact decode3 c hC rest
      · refine ⟨0xF0 + c / 262144,
          (0x80 + c / 4096 % 64) :: (0x80 + c / 64 % 64) :: (0x80 + c % 64) :: rest,
          by simp [encodeUTF8Char, hA, hB, hC], by omega, ?_, ?_, ?_⟩
        · simp [encodeUTF8Char, hA, hB, hC, size_lead4 c h1]
        · simp [size_lead4 c h1]
        · rw [size_lead4 c h1]
          exact decode4 c h1 rest

/-- The cursor walk over the encoding of a codepoint sequence recovers
exactly that sequence, for any sufficient fuel. -/
theorem utf8CharsAux_encode (cs : List Nat) (h : ∀ c ∈ cs, 0 < c ∧ c < 0x110000) :
    ∀ fuel, (encodeUTF8String cs).length ≤ fuel →
      utf8CharsAux fuel (encodeUTF8String cs) = cs := by
  induction cs with
  | nil =>
    intro fuel _
    cases fuel <;> rfl
  | cons c cs ih =>
    intro fuel hfuel
    obtain ⟨h0, h1⟩ := h c (List.mem_cons_self c cs)
    obtain ⟨b, tail, heq, hb0, hsz, hdrop, hdec⟩ :=
      encode_step c (encodeUTF8String cs) h1 h0
    have hlen : (encodeUTF8Char c).length + (encodeUTF8String cs).length = tail.length + 1 := by
      have := congrArg List.length heq
      simpa using this
    have hepos : 0 < (encodeUTF8Char c).length :=
      List.length_pos.mpr (encodeUTF8Char_ne_nil c)
    simp only [encodeUTF8String] at hfuel ⊢
    rw [heq] at hfuel ⊢
    cases fuel with
    | zero =>
      simp at hfuel
    | succ fuel =>
      rw [utf8CharsAux, if_neg hb0, hdec, hsz]
      rw [← hsz, hdrop]
      have hcs : (encodeUTF8String cs).length ≤ fuel := by
        simp at hfuel
        omega
      rw [ih (fun x hx => h x (List.mem_cons_of_mem c hx)) fuel hcs]

theorem toChars_encode (cs : List Nat) (h : ∀ c ∈ cs, 0 < c ∧ c < 0x110000) :
    toChars (encodeUTF8String cs) = cs :=
  utf8CharsAux_encode cs h _ le_rfl

/-- The width-summing scan counts exactly as many characters as the
cursor walk decodes. -/
theorem utf8LenAux_eq : ∀ fuel s, utf8LenAux fuel s = (utf8CharsAux fuel s).length := by
  intro fuel
  induction fuel with
  | zero => intro s; cases s <;> rfl
  | succ fuel ih =>
    intro s
    cases s with
    | nil => rfl
    | cons b rest =>
      simp only [utf8LenAux, utf8CharsAux]
      by_cases hb : b = 0
      · simp [hb]
      · simp [hb, ih]
        omega

theorem encodeUTF8Char_bytes_ne_zero (c : Nat) (h0 : 0 < c) :
    ∀ b ∈ encodeUTF8Char c, b ≠ 0 := by
  unfold encodeUTF8Char
  split_ifs <;> intro b hb <;> simp at hb <;> omega

theorem encodeUTF8String_bytes_ne_zero (cs : List Nat) (h : ∀ c ∈ cs, 0 < c) :
    ∀ b ∈ encodeUTF8String cs, b ≠ 0 := by
  induction cs with
  | nil => simp [encodeUTF8String]
  | cons c cs ih =>
    simp only [encodeUTF8String]
    intro b hb
    rcases List.mem_append.mp hb with h1 | h2
    · exact encodeUTF8Char_bytes_ne_zero c (h c (by simp)) b h1
    · exact ih (fun x hx => h x (by simp [hx])) b h2

theorem takeWhile_ne_zero_eq (l : List Nat) (h : ∀ b ∈ l, b ≠ 0) :
    l.takeWhile (fun b => !(b == 0)) = l := by
  induction l with
  | nil => rfl
  | cons b rest ih =>
    rw [List.takeWhile_cons]
    have hb : (!(b == 0)) = true := by
      simp [h b (by simp)]
    rw [if_pos hb, ih (fun x hx => h x (by simp [hx]))]

/-! ## Claim theorems -/

/-- Claim C1: for every valid non-surrogate Unicode scalar value c,
the UTF-8 run produced by encoding c has length equal to the encoded
width computed by getUTF8SizeFromUnicodeChar, and decoding that run
with getUnicodeCharFromUTF8Char yields c again. -/
theorem c1_decode_encode_roundtrip (c : Nat) (h1 : c < 0x110000)
    (h2 : c < 0xD800 ∨ 0xE000 ≤ c) :
    (encodeUTF8Char c).length = getUTF8SizeFromUnicodeChar c ∧
    getUnicodeCharFromUTF8Char (getUTF8SizeFromUnicodeChar c) (encodeUTF8Char c) = c := by
  refine ⟨encodeUTF8Char_length_eq c, ?_⟩
  rw [← encodeUTF8Char_length_eq c]
  by_cases hA : c < 0x80
  · rw [show encodeUTF8Char c = [c] by simp [encodeUTF8Char, hA]]
    exact decode1 c hA []
  · by_cases hB : c < 0x800
    · rw [show encodeUTF8Char c = [0xC0 + c / 64, 0x80 + c % 64] by
        simp [encodeUTF8Char, hA, hB]]
      exact decode2 c hB []
    · by_cases hC : c < 0x10000
      · rw [show encodeUTF8Char c = [0xE0 + c / 4096, 0x80 + c / 64 % 64, 0x80 + c % 64] by
          simp [encodeUTF8Char, hA, hB, hC]]
        exact decode3 c hC []
      · rw [show encodeUTF8Char c =
            [0xF0 + c / 262144, 0x80 + c / 4096 % 64, 0x80 + c / 64 % 64, 0x80 + c % 64] by
          simp [encodeUTF8Char, hA, hB, hC]]
        exact decode4 c h1 []

/-- Claim C1 witness at the concrete codepoint U+4F60. -/
theorem c1_witness :
    getUnicodeCharFromUTF8Char (getUTF8SizeFromUnicodeChar 0x4F60) (encodeUTF8Char 0x4F60) = 0x4F60 :=
  (c1_decode_encode_roundtrip 0x4F60 (by decide) (by decide)).2

/-- Claim C2: the leading-byte width function returns 1 on the pattern
0xxxxxxx, 2 on 110xxxxx, 3 on 1110xxxx, 4 on 11110xxx, and returns 1 on
a malformed leading byte of continuation pattern 10xxxxxx. -/
theorem c2_leading_byte_width (b : Nat) (h : b < 256) :
    (b < 0x80 → getSizeFromUTF8Char b = 1) ∧
    (0xC0 ≤ b ∧ b < 0xE0 → getSizeFromUTF8Char b = 2) ∧
    (0xE0 ≤ b ∧ b < 0xF0 → getSizeFromUTF8Char b = 3) ∧
    (0xF0 ≤ b ∧ b < 0xF8 → getSizeFromUTF8Char b = 4) ∧
    (0x80 ≤ b ∧ b < 0xC0 → getSizeFromUTF8Char b = 1) := by
  unfold getSizeFromUTF8Char
  refine ⟨?_, ?_, ?_, ?_, ?_⟩ <;> intro hb <;> split_ifs <;> omega

/-- Claim C2 witness at the continuation byte 0x90 and the leading
bytes 0x41 and 0xE4. -/
theorem c2_witness :
    getSizeFromUTF8Char 0x90 = 1 ∧ getSizeFromUTF8Char 0x41 = 1 ∧
    getSizeFromUTF8Char 0xE4 = 3 :=
  ⟨(c2_leading_byte_width 0x90 (by decide)).2.2.2.2 (by decide),
   (c2_leading_byte_width 0x41 (by decide)).1 (by decide),
   (c2_leading_byte_width 0xE4 (by decide)).2.2.1 (by decide)⟩

/-- Claim C3: on every UTF-8-valid zero-terminator-free byte sequence
(the encoding of a sequence of nonzero valid scalar values), the
character-length scan returns the number of scalar values and the
byte-length scan returns the byte length; concretely, on the two
three-byte characters of the string U+4F60 U+597D the character length
is 2, the byte length is 6, and the characters at indices 0 and 1
decode to U+4F60 and U+597D. -/
theorem c3_lengths (cs : List Nat) (h : ∀ c ∈ cs, 0 < c ∧ c < 0x110000) :
    (getStringLengthFromUTF8String (encodeUTF8String cs) = cs.length ∧
     getByteLengthFromUTF8String (encodeUTF8String cs) = (encodeUTF8String cs).length ∧
     toChars (encodeUTF8String cs) = cs) ∧
    getStringLengthFromUTF8String [0xE4, 0xBD, 0xA0, 0xE5, 0xA5, 0xBD] = 2 ∧
    getByteLengthFromUTF8String [0xE4, 0xBD, 0xA0, 0xE5, 0xA5, 0xBD] = 6 ∧
    atChar [0xE4, 0xBD, 0xA0, 0xE5, 0xA5, 0xBD] 0 = 0x4F60 ∧
    atChar [0xE4, 0xBD, 0xA0, 0xE5, 0xA5, 0xBD] 1 = 0x597D := by
  refine ⟨⟨?_, ?_, toChars_encode cs h⟩, by decide, by decide, by decide, by decide⟩
  · have ht := toChars_encode cs h
    unfold toChars at ht
    unfold getStringLengthFromUTF8String
    rw [utf8LenAux_eq, ht]
  · unfold getByteLengthFromUTF8String
    rw [takeWhile_ne_zero_eq _ (encodeUTF8String_bytes_ne_zero cs (fun c hc => (h c hc).1))]

/-- Claim C3 witness at the codepoint sequence U+4F60 U+597D. -/
theorem c3_witness :
    getStringLengthFromUTF8String (encodeUTF8String [0x4F60, 0x597D]) = 2 ∧
    getByteLengthFromUTF8String (encodeUTF8String [0x4F60, 0x597D]) = 6 ∧
    toChars (encodeUTF8String [0x4F60, 0x597D]) = [0x4F60, 0x597D] := by
  have h := (c3_lengths [0x4F60, 0x597D] (by decide)).1
  exact ⟨h.1, by rw [h.2.1]; decide, h.2.2⟩

/-! ## Helper lemmas about the search scan -/

theorem isPrefixOfChars_iff (a : List Nat) :
    ∀ b, isPrefixOfChars a b = true ↔ ∃ t, b = a ++ t := by
  induction a with
  | nil =>
    intro b
    simp only [isPrefixOfChars, List.nil_append]
    exact ⟨fun _ => ⟨b, rfl⟩, fun _ => trivial⟩
  | cons x xs ih =>
    intro b
    cases b with
    | nil =>
      simp [isPrefixOfChars]
    | cons y ys =>
      simp only [isPrefixOfChars, Bool.and_eq_true, beq_iff_eq, List.cons_append]
      constructor
      · rintro ⟨hxy, hp⟩
        obtain ⟨t, ht⟩ := (ih ys).mp hp
        subst hxy
        exact ⟨t, by rw [ht]⟩
      · rintro ⟨t, ht⟩
        injection ht with h1 h2
        exact ⟨h1.symm, (ih ys).mpr ⟨t, h2⟩⟩

theorem occursIn_iff (N H : List Nat) :
    OccursIn N H ↔ ∃ i, isPrefixOfChars N (H.drop i) = true := by
  constructor
  · rintro ⟨pre, post, rfl⟩
    refine ⟨pre.length, ?_⟩
    rw [List.append_assoc, List.drop_left]
    exact (isPrefixOfChars_iff N (N ++ post)).mpr ⟨post, rfl⟩
  · rintro ⟨i, hi⟩
    obtain ⟨t, ht⟩ := (isPrefixOfChars_iff N (H.drop i)).mp hi
    exact ⟨H.take i, t, by rw [List.append_assoc, ← ht, List.take_append_drop]⟩

/-- Full behaviour of the naive scan: -1 exactly when no position
matches, and a returned index is the first matching position. -/
theorem findGo_spec (N : List Nat) :
    ∀ (H : List Nat) (i0 : Nat),
      (findGo N H i0 = -1 ↔ ∀ j, isPrefixOfChars N (H.drop j) = false) ∧
      (∀ k : Nat, findGo N H i0 = ((i0 + k : Nat) : Int) →
        isPrefixOfChars N (H.drop k) = true ∧
        ∀ j < k, isPrefixOfChars N (H.drop j) = false) ∧
      ((∃ k : Nat, findGo N H i0 = ((i0 + k : Nat) : Int)) ∨ findGo N H i0 = -1) := by
  intro H
  induction H with
  | nil =>
    intro i0
    simp only [findGo]
    by_cases hp : isPrefixOfChars N [] = true
    · rw [if_pos hp]
      refine ⟨?_, ?_, .inl ⟨0, by simp⟩⟩
      · constructor
        · intro h
          exact absurd h (by omega)
        · intro h
          have h0 := h 0
          rw [List.drop_nil] at h0
          rw [h0] at hp
          exact Bool.noConfusion hp
      · intro k hk
        have hk0 : k = 0 := by omega
        subst hk0
        refine ⟨by simpa using hp, ?_⟩
        intro j hj
        exact absurd hj (by omega)
    · rw [if_neg hp]
      refine ⟨?_, ?_, .inr rfl⟩
      · refine ⟨fun _ j => ?_, fun _ => rfl⟩
        rw [List.drop_nil]
        simpa using hp
      · intro k hk
        exact absurd hk (by omega)
  | cons c rest ih =>
    intro i0
    simp only [findGo]
    by_cases hp : isPrefixOfChars N (c :: rest) = true
    · rw [if_pos hp]
      refine ⟨?_, ?_, .inl ⟨0, by simp⟩⟩
      · constructor
        · intro h
          exact absurd h (by omega)
        · intro h
          have h0 := h 0
          rw [List.drop_zero] at h0
          rw [h0] at hp
          exact Bool.noConfusion hp
      · intro k hk
        have hk0 : k = 0 := by omega
        subst hk0
        refine ⟨by simpa using hp, ?_⟩
        intro j hj
        exact absurd hj (by omega)
    · rw [if_neg hp]
      obtain ⟨ihA, ihB, ihC⟩ := ih (i0 + 1)
      refine ⟨?_, ?_, ?_⟩
      · rw [ihA]
        constructor
        · intro h1 j
          cases j with
          | zero =>
            rw [List.drop_zero]
            simpa using hp
          | succ j =>
            rw [List.drop_succ_cons]
            exact h1 j
        · intro h1 j
          have := h1 (j + 1)
          rwa [List.drop_succ_cons] at this
      · intro k hk
        rcases ihC with ⟨k1, hk1⟩ | hk1
        · have hkk : k = k1 + 1 := by
            rw [hk1] at hk
            omega
          subst hkk
          obtain ⟨hm, hmin⟩ := ihB k1 hk1
          refine ⟨by rwa [List.drop_succ_cons], ?_⟩
          intro j hj
          cases j with
          | zero =>
            rw [List.drop_zero]
            simpa using hp
          | succ j =>
            rw [List.drop_succ_cons]
            exact hmin j (by omega)
        · rw [hk1] at hk
          exact absurd hk (by omega)
      · rcases ihC with ⟨k1, hk1⟩ | hk1
        · refine .inl ⟨k1 + 1, ?_⟩
          rw [hk1]
          omega
        · exact .inr hk1

/-- Claim C5: find returns the sentinel -1 exactly when the needle
codepoint sequence does not occur as a contiguous character block of
the haystack; otherwise the returned value is the character index of
the first occurrence.  Not-found is an ordinary return value of the
total function, not an error. -/
theorem c5_find_not_found_iff (hay needle : List Nat) :
    (find hay needle = -1 ↔ ¬ OccursIn (toChars needle) (toChars hay)) ∧
    (∀ i : Nat, find hay needle = (i : Int) →
      isPrefixOfChars (toChars needle) ((toChars hay).drop i) = true ∧
      ∀ j < i, isPrefixOfChars (toChars needle) ((toChars hay).drop j) = false) := by
  obtain ⟨hA, hB, -⟩ := findGo_spec (toChars needle) (toChars hay) 0
  constructor
  · rw [find, hA, occursIn_iff]
    constructor
    · intro h
      rintro ⟨i, hi⟩
      rw [h i] at hi
      exact Bool.noConfusion hi
    · intro h j
      cases hJ : isPrefixOfChars (toChars needle) ((toChars hay).drop j)
      · rfl
      · exact absurd ⟨j, hJ⟩ h
  · intro i hi
    refine hB i ?_
    rw [find] at hi
    simpa using hi

/-- Claim C5 witness: a present needle and an absent needle in the
haystack "abc". -/
theorem c5_witness :
    isPrefixOfChars (toChars [98, 99]) ((toChars [97, 98, 99]).drop 1) = true ∧
    ¬ OccursIn (toChars [100]) (toChars [97, 98, 99]) :=
  ⟨((c5_find_not_found_iff [97, 98, 99] [98, 99]).2 1 (by decide)).1,
   (c5_find_not_found_iff [97, 98, 99] [100]).1.mp (by decide)⟩

/-! ## Helper lemmas about the split scan -/

theorem splitGo_ne_nil (d : List Nat) :
    ∀ fuel s acc, splitGo d fuel s acc ≠ [] := by
  intro fuel
  induction fuel with
  | zero =>
    intro s acc
    simp [splitGo]
  | succ fuel ih =>
    intro s acc
    cases s with
    | nil => simp [splitGo]
    | cons c rest =>
      rw [splitGo]
      split_ifs with h
      · simp
      · exact ih rest (c :: acc)

theorem joinWithDelim_cons (d x : List Nat) (xs : List (List Nat)) (h : xs ≠ []) :
    joinWithDelim d (x :: xs) = x ++ d ++ joinWithDelim d xs := by
  cases xs with
  | nil => exact absurd rfl h
  | cons y ys => rfl

theorem isPrefixOfChars_append_drop (d s : List Nat) (h : isPrefixOfChars d s = true) :
    d ++ s.drop d.length = s := by
  obtain ⟨t, rfl⟩ := (isPrefixOfChars_iff d s).mp h
  rw [List.drop_left]

/-- The split scan, concatenated back with the delimiter between
segments, restores the remaining input appended to the pending
segment. -/
theorem splitGo_join (d : List Nat) (hd : d ≠ []) :
    ∀ fuel s acc, joinWithDelim d (splitGo d fuel s acc) = acc.reverse ++ s := by
  intro fuel
  induction fuel with
  | zero =>
    intro s acc
    rfl
  | succ fuel ih =>
    intro s acc
    cases s with
    | nil => simp [splitGo, joinWithDelim]
    | cons c rest =>
      rw [splitGo]
      split_ifs with h
      · rw [joinWithDelim_cons d _ _ (splitGo_ne_nil d fuel _ _), ih]
        simp only [List.reverse_nil, List.nil_append]
        rw [List.append_assoc, isPrefixOfChars_append_drop d (c :: rest) h.1]
      · rw [ih rest (c :: acc)]
        simp

/-- Claim C6: splitting by a non-empty delimiter yields segments whose
concatenation with the delimiter reinserted between them reconstructs
the input, and splitting the codepoint sequence of "a,b,,c" by ","
yields the four segments "a", "b", "", "c" in order, the empty segment
and the trailing segment included. -/
theorem c6_split_reconstruct (s d : List Nat) (hd : d ≠ []) :
    joinWithDelim d (splitChars s d) = s ∧
    splitChars [97, 44, 98, 44, 44, 99] [44] = [[97], [98], [], [99]] := by
  refine ⟨?_, by decide⟩
  rw [splitChars, splitGo_join d hd]
  rfl

/-- Claim C6 witness on the concrete scenario "a,b,,c" with ",". -/
theorem c6_witness :
    joinWithDelim [44] (splitChars [97, 44, 98, 44, 44, 99] [44]) = [97, 44, 98, 44, 44, 99] :=
  (c6_split_reconstruct [97, 44, 98, 44, 44, 99] [44] (by decide)).1

/-! ## Helper lemmas about the trim scans -/

theorem dropSpaces_decomp : ∀ l : List Nat, ∃ n, l = List.replicate n 32 ++ dropSpaces l := by
  intro l
  induction l with
  | nil => exact ⟨0, rfl⟩
  | cons b t ih =>
    by_cases hb : (b == 32) = true
    · obtain ⟨n, hn⟩ := ih
      have hb32 : b = 32 := by simpa using hb
      refine ⟨n + 1, ?_⟩
      rw [dropSpaces, if_pos hb, List.replicate_succ, List.cons_append, hb32, ← hn]
    · refine ⟨0, ?_⟩
      rw [dropSpaces, if_neg hb, List.replicate, List.nil_append]

theorem dropSpaces_head_not_space :
    ∀ l x xs, dropSpaces l = x :: xs → (x == 32) = false := by
  intro l
  induction l with
  | nil =>
    intro x xs h
    exact absurd h (by simp [dropSpaces])
  | cons b t ih =>
    intro x xs h
    rw [dropSpaces] at h
    by_cases hb : (b == 32) = true
    · rw [if_pos hb] at h
      exact ih x xs h
    · rw [if_neg hb] at h
      injection h with h1 _
      rw [← h1]
      simpa using hb

theorem dropSpaces_eq_self (l : List Nat)
    (h : ∀ x xs, l = x :: xs → (x == 32) = false) : dropSpaces l = l := by
  cases l with
  | nil => rfl
  | cons b t =>
    rw [dropSpaces, if_neg]
    rw [h b t rfl]
    simp

theorem dropSpaces_is_drop : ∀ l : List Nat, ∃ k, dropSpaces l = l.drop k := by
  intro l
  induction l with
  | nil => exact ⟨0, rfl⟩
  | cons b t ih =>
    by_cases hb : (b == 32) = true
    · obtain ⟨k, hk⟩ := ih
      refine ⟨k + 1, ?_⟩
      rw [dropSpaces, if_pos hb, List.drop_succ_cons, hk]
    · refine ⟨0, ?_⟩
      rw [dropSpaces, if_neg hb, List.drop_zero]

/-- The strip of the right end performed by trim leaves a list whose
reverse starts with the leading bytes of the once-stripped input, so
the head of trim is a head of the once-stripped input. -/
theorem trim_decomp (s : List Nat) :
    ∃ a b, s = List.replicate a 32 ++ trim s ++ List.replicate b 32 := by
  obtain ⟨a, ha⟩ := dropSpaces_decomp s
  obtain ⟨b, hb⟩ := dropSpaces_decomp (dropSpaces s).reverse
  refine ⟨a, b, ?_⟩
  have hd : dropSpaces s = (trim s) ++ List.replicate b 32 := by
    have h1 : dropSpaces s = (dropSpaces s).reverse.reverse := (List.reverse_reverse _).symm
    rw [h1, hb, List.reverse_append, List.reverse_replicate]
    rfl
  rw [hd] at ha
  rw [List.append_assoc]
  exact ha

theorem trim_head_not_space (s : List Nat) :
    ∀ x xs, trim s = x :: xs → (x == 32) = false := by
  intro x xs h
  obtain ⟨k, hk⟩ := dropSpaces_is_drop (dropSpaces s).reverse
  have h1 : (dropSpaces s).reverse.take k ++ (dropSpaces s).reverse.drop k =
      (dropSpaces s).reverse := List.take_append_drop k (dropSpaces s).reverse
  have h2 : dropSpaces s =
      ((dropSpaces s).reverse.drop k).reverse ++ ((dropSpaces s).reverse.take k).reverse := by
    have h3 := congrArg List.reverse h1
    rw [List.reverse_append, List.reverse_reverse] at h3
    exact h3.symm
  have h4 : trim s = ((dropSpaces s).reverse.drop k).reverse := by
    rw [trim, hk]
  rw [h4] at h
  rw [h, List.cons_append] at h2
  exact dropSpaces_head_not_space s x _ h2

theorem trim_reverse_head_not_space (s : List Nat) :
    ∀ x xs, (trim s).reverse = x :: xs → (x == 32) = false := by
  intro x xs h
  rw [trim, List.reverse_reverse] at h
  exact dropSpaces_head_not_space (dropSpaces s).reverse x xs h

/-- Claim C7: trim removes only leading and trailing ASCII space bytes
(the input is the trimmed core surrounded by two all-space runs, so
internal spaces are preserved), it is idempotent, and trim of " a b "
is "a b".  The function is pure: it builds a new owned string and the
input is untouched. -/
theorem c7_trim (s : List Nat) :
    (∃ a b, s = List.replicate a 32 ++ trim s ++ List.replicate b 32) ∧
    trim (trim s) = trim s ∧
    trim [32, 97, 32, 98, 32] = [97, 32, 98] := by
  refine ⟨trim_decomp s, ?_, by decide⟩
  have h1 : dropSpaces (trim s) = trim s :=
    dropSpaces_eq_self _ (trim_head_not_space s)
  have h2 : dropSpaces (trim s).reverse = (trim s).reverse :=
    dropSpaces_eq_self _ (trim_reverse_head_not_space s)
  rw [trim, h1, h2, List.reverse_reverse]

/-- Claim C8: the case predicates and conversions act only on the two
ASCII alphabetic ranges; conversion adds or subtracts the fixed offset
0x20; every codepoint outside both ranges passes through toLower and
toUpper unchanged and does not affect isLower or isUpper; and the copy
conversion of the bytes of "Hello" yields the bytes of "HELLO". -/
theorem c8_ascii_case (c : Nat) (cs : List Nat) :
    ((0x41 ≤ c ∧ c ≤ 0x5A) → toLowerChar c = c + 0x20) ∧
    ((0x61 ≤ c ∧ c ≤ 0x7A) → toUpperChar c = c - 0x20) ∧
    (¬(0x41 ≤ c ∧ c ≤ 0x5A) → ¬(0x61 ≤ c ∧ c ≤ 0x7A) →
      toLowerChar c = c ∧ toUpperChar c = c ∧
      isLowerChars (c :: cs) = isLowerChars cs ∧
      isUpperChars (c :: cs) = isUpperChars cs) ∧
    viewToUpper [72, 101, 108, 108, 111] = [72, 69, 76, 76, 79] := by
  refine ⟨?_, ?_, ?_, by decide⟩
  · intro hc
    rw [toLowerChar, if_pos hc]
  · intro hc
    rw [toUpperChar, if_pos hc]
  · intro h1 h2
    refine ⟨by rw [toLowerChar, if_neg h1], by rw [toUpperChar, if_neg h2], ?_, ?_⟩
    · have hu : isUpperAscii c = false := by
        rw [isUpperAscii, if_neg h1]
      simp [isLowerChars, hu]
    · have hl : isLowerAscii c = false := by
        rw [isLowerAscii, if_neg h2]
      simp [isUpperChars, hl]

/-- Claim C8 witness: the letter h upper-cases to H, the letter H
lower-cases to h, and the codepoint 0x4F60 passes through both
conversions unchanged. -/
theorem c8_witness :
    toUpperChar 0x68 = 0x48 ∧ toLowerChar 0x48 = 0x68 ∧
    toLowerChar 0x4F60 = 0x4F60 ∧ toUpperChar 0x4F60 = 0x4F60 := by
  have h1 := (c8_ascii_case 0x68 []).2.1 (by decide)
  have h2 := (c8_ascii_case 0x48 []).1 (by decide)
  have h3 := (c8_ascii_case 0x4F60 []).2.2.1 (by decide) (by decide)
  exact ⟨by rw [h1], by rw [h2], h3.1, h3.2.1⟩

/-- Claim C9 counterexample: on the malformed one-byte string holding
the lone continuation byte 0x80, decoding yields the codepoint 0 which
re-encodes as the zero byte, so reversing twice yields the empty string
rather than the original — the double-reversal identity fails for
strings that are not valid UTF-8. -/
theorem c9_counterexample :
    ¬ (reverse (reverse [0x80]) = [0x80]) := by decide

/-- Claim C9 (amended to UTF-8-valid strings): on the encoding of any
sequence of nonzero valid scalar values, reverse is the codepoint-order
reversal — the decoded sequence of the reversed string is the reversed
decoded sequence — and applying it twice restores the original string.
The function is pure: it re-encodes into a new owned buffer and leaves
its input unchanged. -/
theorem c9_reverse_involutive (cs : List Nat) (h : ∀ c ∈ cs, 0 < c ∧ c < 0x110000) :
    reverse (reverse (encodeUTF8String cs)) = encodeUTF8String cs ∧
    toChars (reverse (encodeUTF8String cs)) = cs.reverse := by
  have hrev : ∀ c ∈ cs.reverse, 0 < c ∧ c < 0x110000 := fun c hc =>
    h c (List.mem_reverse.mp hc)
  have h1 : reverse (encodeUTF8String cs) = encodeUTF8String cs.reverse := by
    rw [reverse, toChars_encode cs h]
  constructor
  · rw [h1, reverse, toChars_encode cs.reverse hrev, List.reverse_reverse]
  · rw [h1, toChars_encode cs.reverse hrev]

/-- Claim C9 witness at the two-codepoint string U+4F60 "a" (a
three-byte character followed by a one-byte character). -/
theorem c9_witness :
    reverse (reverse (encodeUTF8String [0x4F60, 97])) = encodeUTF8String [0x4F60, 97] ∧
    toChars (reverse (encodeUTF8String [0x4F60, 97])) = [97, 0x4F60] :=
  ⟨(c9_reverse_involutive [0x4F60, 97] (by decide)).1,
   (c9_reverse_involutive [0x4F60, 97] (by decide)).2⟩

/-! ## Helper lemmas about the owned-string buffer -/

theorem mkBuf_length (used : List Nat) (cap : Nat) (h : used.length < cap) :
    (mkBuf used cap).length = cap := by
  rw [mkBuf, List.length_append, List.length_replicate]
  omega

theorem mkBuf_terminator (used : List Nat) (cap : Nat) (h : used.length < cap) :
    (mkBuf used cap).get? used.length = some 0 := by
  rw [mkBuf, List.get?_append_right le_rfl, Nat.sub_self]
  cases hc : cap - used.length with
  | zero => omega
  | succ n => rw [List.replicate_succ]; rfl

theorem usedBytes_length (s : SString) (h : s.WF) : s.usedBytes.length = s.size := by
  rcases s with ⟨data, size, cap⟩
  cases data with
  | none =>
    obtain ⟨h1, h2⟩ := h
    dsimp only at h1
    subst h1
    rfl
  | some buf =>
    obtain ⟨h1, h2, h3⟩ := h
    dsimp only at h1 h2 ⊢
    rw [SString.usedBytes]
    dsimp only
    rw [Option.getD_some, List.length_take]
    omega

/-- Claim C4: every modelled operation on an owned string — default
construction, construction from bytes, copy, move, mutating append,
in-place case conversion — preserves the owned-string invariant (used
byte length below capacity with the zero terminator stored at offset
equal to the byte length, or the zeroed null state); move zeroes the
fields of the source, whose destruction is therefore a no-op. -/
theorem c4_owned_invariants (s : SString) (bytes t : List Nat) (h : s.WF) :
    defaultSString.WF ∧
    (SString.fromBytes bytes).WF ∧
    s.copy.WF ∧
    s.moveDest.WF ∧
    s.moveSrc = defaultSString ∧
    s.moveSrc.destructorIsNoop ∧
    (s.appendAssign t).WF ∧
    s.toUpperInPlace.WF ∧
    s.toLowerInPlace.WF := by
  have hcopy : s.copy = s := by
    rcases s with ⟨data, size, cap⟩
    rfl
  have hused : s.usedBytes.length = s.size := usedBytes_length s h
  have hmap : ∀ f : Nat → Nat, (s.mapBytesInPlace f).WF := by
    intro f
    rcases s with ⟨data, size, cap⟩
    cases data with
    | none => exact h
    | some buf =>
      obtain ⟨h1, h2, h3⟩ := h
      dsimp only at h1 h2 h3
      show SString.WF ⟨some ((buf.take size).map f ++ buf.drop size), size, cap⟩
      have hlen : ((buf.take size).map f).length = size := by
        rw [List.length_map, List.length_take]
        omega
      refine ⟨?_, h2, ?_⟩
      · show ((buf.take size).map f ++ buf.drop size).length = cap
        rw [List.length_append, hlen, List.length_drop]
        omega
      · show ((buf.take size).map f ++ buf.drop size).get? size = some 0
        rw [List.get?_append_right hlen.le, hlen, Nat.sub_self, List.get?_drop,
          Nat.add_zero]
        exact h3
  have hul : (s.usedBytes ++ t).length = s.size + t.length := by
    rw [List.length_append, hused]
  refine ⟨⟨rfl, rfl⟩, ?_, ?_, h, rfl, rfl, ?_, hmap toUpperChar, hmap toLowerChar⟩
  · exact ⟨mkBuf_length bytes (bytes.length + 1) (by omega),
      Nat.lt_succ_self bytes.length,
      mkBuf_terminator bytes (bytes.length + 1) (by omega)⟩
  · rw [hcopy]
    exact h
  · rw [SString.appendAssign]
    split_ifs with hlt
    · refine ⟨mkBuf_length _ _ (by omega), ?_, ?_⟩
      · show s.size + t.length < s.capacity
        exact hlt
      · show (mkBuf (s.usedBytes ++ t) s.capacity).get? (s.size + t.length) = some 0
        have hterm := mkBuf_terminator (s.usedBytes ++ t) s.capacity (by omega)
        rwa [hul] at hterm
    · refine ⟨mkBuf_length _ _ (by omega), ?_, ?_⟩
      · show s.size + t.length < max (2 * s.capacity) (s.size + t.length + 1)
        omega
      · show (mkBuf (s.usedBytes ++ t) (max (2 * s.capacity) (s.size + t.length + 1))).get?
            (s.size + t.length) = some 0
        have hterm := mkBuf_terminator (s.usedBytes ++ t)
          (max (2 * s.capacity) (s.size + t.length + 1)) (by omega)
        rwa [hul] at hterm

/-- Claim C4 witness: the invariant holds for a concrete construction
and for a concrete in-place append on it. -/
theorem c4_witness :
    (SString.fromBytes [104, 105]).WF ∧
    ((SString.fromBytes [104]).appendAssign [33]).WF := by
  have hwf : (SString.fromBytes [104]).WF := ⟨rfl, by decide, rfl⟩
  have h := c4_owned_invariants (SString.fromBytes [104]) [104, 105] [33] hwf
  exact ⟨h.2.1, h.2.2.2.2.2.2.1⟩

/-- Claim C10: null is exactly the null-pointer test on the data field
and empty is exactly the zero-length test on the size field; the
conditions differ, witnessed by a well-formed owned string over an
allocated buffer holding zero bytes, which is empty but not null. -/
theorem c10_null_vs_empty :
    (∀ s : SString, s.null = true ↔ s.data = none) ∧
    (∀ s : SString, s.empty = true ↔ s.size = 0) ∧
    (∃ s : SString, s.WF ∧ s.empty = true ∧ s.null = false) := by
  refine ⟨?_, ?_, ⟨SString.fromBytes [], ⟨rfl, by decide, rfl⟩, rfl, rfl⟩⟩
  · intro s
    rw [SString.null, Option.isNone_iff_eq_none]
  · intro s
    rw [SString.empty]
    exact beq_iff_eq

end sstr
